import Mathlib

/-!
Verification of the Japanese-Sentence-Practice repository.

Strings are modelled as `List Char`.  The streaming evaluator
`evaluateSentenceStream` (services/geminiService.ts) is modelled as a pure
function from the list of stream chunks to the list of callback events it
fires; the history service (services/historyService.ts) is modelled as
explicit state passing over the backing store (the stored JSON string is
modelled at the parsed level, since every write stores `JSON.stringify` of a
well-formed array).  JavaScript regular-expression behaviour used by the code
(`/^key:\s*(pat)/m`) is embedded directly: multiline `^` anchors at position 0
and after every line terminator, `\s` is the ECMAScript whitespace class
(which includes line terminators), `.` matches everything except the four
ECMAScript line terminators, and matching is leftmost with greedy
quantifiers (here backtracking never changes the outcome because `\s` and
`\d` are disjoint and `(.*)` always succeeds).
-/

namespace JSentence

/-- ECMAScript `\s` (WhiteSpace ∪ LineTerminator): space, tab, LF, VT, FF, CR,
NBSP, Ogham space, U+2000–U+200A, LS, PS, NNBSP, MMSP, ideographic space, BOM. -/
def jsWhitespace (c : Char) : Bool :=
  let n := c.toNat
  n == 0x20 || n == 0x09 || n == 0x0a || n == 0x0b || n == 0x0c || n == 0x0d ||
  n == 0xa0 || n == 0x1680 || (decide (0x2000 ≤ n) && decide (n ≤ 0x200a)) ||
  n == 0x2028 || n == 0x2029 || n == 0x202f || n == 0x205f || n == 0x3000 || n == 0xfeff

/-- ECMAScript LineTerminator: LF, CR, LS, PS. -/
def isLineTerm (c : Char) : Bool :=
  c == '\n' || c == '\r' || c.toNat == 0x2028 || c.toNat == 0x2029

/-- `String.prototype.trim`: strip `\s` characters from both ends. -/
def jsTrim (s : List Char) : List Char :=
  ((s.dropWhile jsWhitespace).reverse.dropWhile jsWhitespace).reverse

/-- `String.prototype.indexOf` for a pattern: index of the first occurrence,
`none` for JavaScript's `-1`. -/
def firstIdx? (pat : List Char) : List Char → Option Nat
  | [] => if pat.isEmpty then some 0 else none
  | c :: cs =>
    if pat.isPrefixOf (c :: cs) then some 0
    else (firstIdx? pat cs).map (fun n => n + 1)

/-- Suffixes of `s` starting right after each line terminator (the candidate
positions of a multiline `^` anchor, other than position 0). -/
def tailsAfterNL : List Char → List (List Char)
  | [] => []
  | c :: cs => if isLineTerm c then cs :: tailsAfterNL cs else tailsAfterNL cs

/-- All suffixes of `s` at which a multiline `^` can match, leftmost first. -/
def lineStartTails (s : List Char) : List (List Char) :=
  s :: tailsAfterNL s

/-- Leftmost match of an anchored pattern `g` over the multiline `^`
positions of `s`. -/
def scanLineStarts (g : List Char → Option α) (s : List Char) : Option α :=
  (lineStartTails s).findSome? g

def keyScore : List Char := "score:".toList

def keyEvaluation : List Char := "evaluation:".toList

def keyCorrected : List Char := "correctedSentence:".toList

/-- Match a literal key at the current position, then run `f` on the rest. -/
def tryKey (key : List Char) (f : List Char → Option α) (s : List Char) : Option α :=
  if key.isPrefixOf s then f (s.drop key.length) else none

/-- `\s*(\d+)`: skip whitespace greedily, then capture one or more digits
(backtracking cannot help since `\s` and `\d` are disjoint). -/
def scoreCap (r : List Char) : Option (List Char) :=
  let ds := (r.dropWhile jsWhitespace).takeWhile Char.isDigit
  if ds.isEmpty then none else some ds

/-- `\s*(.*)`: skip whitespace greedily, then capture up to the next line
terminator (ECMAScript `.` matches everything but line terminators). -/
def lineCap (r : List Char) : List Char :=
  (r.dropWhile jsWhitespace).takeWhile (fun c => !(isLineTerm c))

/-- `parseInt(ds, 10)` on a non-empty all-digit capture; JavaScript number
precision artifacts for huge captures are out of scope (integers are exact
here). -/
def digitsVal (ds : List Char) : Nat :=
  ds.foldl (fun acc c => acc * 10 + (c.toNat - 48)) 0

def defaultEvaluation : List Char := "评价未提供".toList

def defaultCorrected : List Char := "(AI did not provide a correction.)".toList

/-- `header.match(/^score:\s*(\d+)/m)` then `parseInt`, defaulting to 0. -/
def scoreOf (h : List Char) : Nat :=
  match scanLineStarts (tryKey keyScore scoreCap) h with
  | some ds => digitsVal ds
  | none => 0

/-- `header.match(/^evaluation:\s*(.*)/m)` then `.trim()`, with default. -/
def evaluationOf (h : List Char) : List Char :=
  match scanLineStarts (tryKey keyEvaluation (fun r => some (lineCap r))) h with
  | some cap => jsTrim cap
  | none => defaultEvaluation

/-- `header.match(/^correctedSentence:\s*(.*)/m)` then `.trim()`, with default. -/
def correctedOf (h : List Char) : List Char :=
  match scanLineStarts (tryKey keyCorrected (fun r => some (lineCap r))) h with
  | some cap => jsTrim cap
  | none => defaultCorrected

/-- The one-time delimiter `'\n--- \n'`. -/
def sep : List Char := "\n--- \n".toList

/-- One callback firing of `evaluateSentenceStream`: `onStructuredData`,
`onExplanationChunk`, or the `finally`-block `await onStreamEnd()`. -/
inductive Ev where
  | structured (score : Nat) (evaluation corrected : List Char)
  | explanation (text : List Char)
  | streamEnd
deriving DecidableEq

/-- The `onStructuredData` payload extracted from a header text. -/
def structuredFields (h : List Char) : Ev :=
  Ev.structured (scoreOf h) (evaluationOf h) (correctedOf h)

/-- `String.prototype.split('\n')`. -/
def splitNL : List Char → List (List Char)
  | [] => [[]]
  | c :: cs =>
    if c = '\n' then [] :: splitNL cs
    else
      match splitNL cs with
      | [] => [[c]]
      | l :: ls => (c :: l) :: ls

/-- The undelimited fallback's explanation guess: the trimmed `'\n'`-join of
the lines after the first line starting with `correctedSentence:` (empty when
that line is absent or last). -/
def fallbackExpl (buf : List Char) : List Char :=
  let lines := splitNL buf
  match lines.findIdx? (fun l => keyCorrected.isPrefixOf l) with
  | some k =>
    if k + 1 < lines.length then jsTrim (List.intercalate ['\n'] (lines.drop (k + 1)))
    else []
  | none => []

/-- Events of the post-loop fallback when the renewed separator search fails. -/
def fallbackNoSep (buf : List Char) : List Ev :=
  structuredFields buf ::
    (if fallbackExpl buf = [] then [] else [Ev.explanation (fallbackExpl buf)])

/-- Events of the post-loop fallback block (`if (!headersParsed && buffer.length > 0)`). -/
def fallbackEvents (buf : List Char) : List Ev :=
  if buf = [] then []
  else
    match firstIdx? sep buf with
    | some i =>
      structuredFields (buf.take i) ::
        (if buf.drop (i + sep.length) = [] then []
         else [Ev.explanation (buf.drop (i + sep.length))])
    | none => fallbackNoSep buf

/-- The `for await` chunk loop: state is `(buffer, headersParsed)`; returns
the events fired plus the final state.  Empty chunk texts are skipped
(`if (text)`). -/
def runLoop : List (List Char) → List Char → Bool → List Ev × List Char × Bool
  | [], buf, hp => ([], buf, hp)
  | t :: ts, buf, hp =>
    if t = [] then runLoop ts buf hp
    else if hp then
      let r := runLoop ts buf true
      (Ev.explanation t :: r.1, r.2)
    else
      let newBuf := buf ++ t
      match firstIdx? sep newBuf with
      | none => runLoop ts newBuf false
      | some i =>
        let r := runLoop ts newBuf true
        (structuredFields (newBuf.take i) ::
          ((if newBuf.drop (i + sep.length) = [] then []
            else [Ev.explanation (newBuf.drop (i + sep.length))]) ++ r.1),
          r.2)

/-- `evaluateSentenceStream` on a stream that completes normally: the ordered
list of `onStructuredData` / `onExplanationChunk` callback events. -/
def evaluateSentenceStream (chunks : List (List Char)) : List Ev :=
  let r := runLoop chunks [] false
  r.1 ++ (if r.2.2 then [] else fallbackEvents r.2.1)

/-- The fixed error string shown by the `catch` block. -/
def errMsg : List Char :=
  "\n\n**Error:** Failed to get feedback from the AI. Please try again.".toList

/-- Full run including the `try`/`catch`/`finally` control flow.
`errorAt = some k` models the stream (or its creation, `k = 0`) throwing after
`k` chunks were delivered; `none` is the normal path.  Every run is a total
value: the error never escapes, and the `finally` block always fires
`streamEnd` last. -/
def evaluateSentenceStreamRun (chunks : List (List Char)) (errorAt : Option Nat) : List Ev :=
  match errorAt with
  | none => evaluateSentenceStream chunks ++ [Ev.streamEnd]
  | some k => (runLoop (chunks.take k) [] false).1 ++ [Ev.explanation errMsg, Ev.streamEnd]

def isStructuredEv : Ev → Bool
  | Ev.structured _ _ _ => true
  | _ => false

def isExplEv : Ev → Bool
  | Ev.explanation _ => true
  | _ => false

def explText : Ev → List Char
  | Ev.explanation t => t
  | _ => []

/-- The `onStructuredData` calls of a run, in order. -/
def structuredEvents (evs : List Ev) : List Ev :=
  evs.filter isStructuredEv

/-- Concatenation of all strings passed to `onExplanationChunk`. -/
def explConcat (evs : List Ev) : List Char :=
  (evs.map explText).flatten

/-- The header region a run extracts fields from: the text strictly before
the first delimiter when one exists, the whole text otherwise. -/
def headerOf (full : List Char) : List Char :=
  match firstIdx? sep full with
  | some i => full.take i
  | none => full

/-! ### Basic lemmas about the string machinery -/

theorem isPrefixOf_append {p a : List Char} (b : List Char) (h : p.isPrefixOf a = true) :
    p.isPrefixOf (a ++ b) = true := by
  simp at h ⊢
  exact h.trans (List.prefix_append a b)

theorem isPrefixOf_length_le {p a : List Char} (h : p.isPrefixOf a = true) :
    p.length ≤ a.length := by
  simp at h
  exact h.length_le

theorem isPrefixOf_of_append {p a b : List Char} (h : p.isPrefixOf (a ++ b) = true)
    (hl : p.length ≤ a.length) : p.isPrefixOf a = true := by
  simp at h ⊢
  exact List.prefix_of_prefix_length_le h (List.prefix_append a b) hl

theorem firstIdx?_le {p s : List Char} {i : Nat} (h : firstIdx? p s = some i) :
    i + p.length ≤ s.length := by
  induction s generalizing i with
  | nil =>
    unfold firstIdx? at h
    by_cases hp : p.isEmpty
    · rw [if_pos hp] at h
      cases h
      simp_all [List.isEmpty_iff]
    · rw [if_neg hp] at h
      cases h
  | cons c cs ih =>
    unfold firstIdx? at h
    by_cases hp : p.isPrefixOf (c :: cs) = true
    · rw [if_pos hp] at h
      cases h
      simpa using isPrefixOf_length_le hp
    · rw [if_neg hp] at h
      cases hc : firstIdx? p cs with
      | none => rw [hc] at h; cases h
      | some j =>
        rw [hc] at h
        cases h
        have := ih hc
        simp only [List.length_cons]
        omega

theorem firstIdx?_append {p a : List Char} {i : Nat} (b : List Char)
    (h : firstIdx? p a = some i) : firstIdx? p (a ++ b) = some i := by
  induction a generalizing i with
  | nil =>
    unfold firstIdx? at h
    by_cases hp : p.isEmpty
    · rw [if_pos hp] at h
      cases h
      have hpe : p = [] := by simpa [List.isEmpty_iff] using hp
      subst hpe
      cases b with
      | nil => rfl
      | cons c cs => rfl
    · rw [if_neg hp] at h
      cases h
  | cons c cs ih =>
    unfold firstIdx? at h
    rw [List.cons_append]
    by_cases hp : p.isPrefixOf (c :: cs) = true
    · rw [if_pos hp] at h
      cases h
      have hx : p.isPrefixOf (c :: (cs ++ b)) = true := by
        have := isPrefixOf_append (a := c :: cs) b hp
        rwa [List.cons_append] at this
      simp only [firstIdx?]
      rw [if_pos hx]
    · rw [if_neg hp] at h
      cases hc : firstIdx? p cs with
      | none => rw [hc] at h; cases h
      | some j =>
        rw [hc] at h
        cases h
        have hrec : firstIdx? p (cs ++ b) = some j := ih hc
        have hle : p.length ≤ (c :: cs).length := by
          have := firstIdx?_le hc
          simp only [List.length_cons]
          omega
        have hnot : ¬ p.isPrefixOf (c :: (cs ++ b)) = true := by
          intro hyp
          rw [← List.cons_append] at hyp
          exact hp (isPrefixOf_of_append hyp hle)
        simp only [firstIdx?]
        rw [if_neg hnot, hrec]
        rfl

theorem firstIdx?_none_of_append {p a b : List Char}
    (h : firstIdx? p (a ++ b) = none) : firstIdx? p a = none := by
  cases hc : firstIdx? p a with
  | none => rfl
  | some i => rw [firstIdx?_append b hc] at h; cases h

theorem sep_firstIdx?_nil : firstIdx? sep [] = none := by decide

/-! ### Lemmas about the chunk loop -/

/-- The explanation events fired for a chunk sequence once `headersParsed`
is true: one event per non-empty chunk text, in order. -/
def explanationEvents : List (List Char) → List Ev
  | [] => []
  | t :: ts => if t = [] then explanationEvents ts else Ev.explanation t :: explanationEvents ts

theorem explConcat_append (a b : List Ev) :
    explConcat (a ++ b) = explConcat a ++ explConcat b := by
  simp [explConcat]

theorem explConcat_cons (e : Ev) (evs : List Ev) :
    explConcat (e :: evs) = explText e ++ explConcat evs := by
  simp [explConcat]

theorem explConcat_explanationEvents (ts : List (List Char)) :
    explConcat (explanationEvents ts) = ts.flatten := by
  induction ts with
  | nil => rfl
  | cons t ts ih =>
    by_cases ht : t = []
    · rw [explanationEvents, if_pos ht, ih, List.flatten_cons, ht, List.nil_append]
    · rw [explanationEvents, if_neg ht, explConcat_cons, ih, List.flatten_cons]
      rfl

theorem explanationEvents_isExpl {ts : List (List Char)} :
    ∀ e ∈ explanationEvents ts, isExplEv e = true := by
  induction ts with
  | nil => intro e he; cases he
  | cons t ts ih =>
    intro e he
    by_cases ht : t = []
    · rw [explanationEvents, if_pos ht] at he
      exact ih e he
    · rw [explanationEvents, if_neg ht] at he
      cases he with
      | head => rfl
      | tail _ h => exact ih e h

theorem runLoop_true (ts : List (List Char)) (buf : List Char) :
    runLoop ts buf true = (explanationEvents ts, buf, true) := by
  induction ts with
  | nil => rfl
  | cons t ts ih =>
    by_cases ht : t = [] <;> simp [runLoop, explanationEvents, ht, ih]

theorem runLoop_noSep (ts : List (List Char)) : ∀ buf : List Char,
    firstIdx? sep (buf ++ ts.flatten) = none →
    runLoop ts buf false = ([], buf ++ ts.flatten, false) := by
  induction ts with
  | nil => intro buf h; simp [runLoop]
  | cons t ts ih =>
    intro buf h
    rw [List.flatten_cons, ← List.append_assoc] at h
    by_cases ht : t = []
    · subst ht
      simp only [List.append_nil] at h
      have := ih buf h
      simp [runLoop, this]
    · have hnone : firstIdx? sep (buf ++ t) = none := firstIdx?_none_of_append h
      have := ih (buf ++ t) h
      simp [runLoop, ht, hnone, this, List.flatten_cons, List.append_assoc]

theorem runLoop_finds (ts : List (List Char)) : ∀ (buf : List Char) (i : Nat),
    firstIdx? sep buf = none →
    firstIdx? sep (buf ++ ts.flatten) = some i →
    ∃ tail buf2, runLoop ts buf false =
        (structuredFields ((buf ++ ts.flatten).take i) :: tail, buf2, true) ∧
      (∀ e ∈ tail, isExplEv e = true) ∧
      explConcat tail = (buf ++ ts.flatten).drop (i + sep.length) := by
  induction ts with
  | nil =>
    intro buf i h1 h2
    rw [List.flatten_nil, List.append_nil, h1] at h2
    cases h2
  | cons t ts ih =>
    intro buf i h1 h2
    rw [List.flatten_cons, ← List.append_assoc] at h2
    by_cases ht : t = []
    · subst ht
      simp only [List.append_nil] at h2
      obtain ⟨tail, buf2, heq, hall, hcat⟩ := ih buf i h1 h2
      refine ⟨tail, buf2, ?_, hall, ?_⟩
      · simpa [runLoop, List.flatten_cons] using heq
      · simpa [List.flatten_cons] using hcat
    · cases hc : firstIdx? sep (buf ++ t) with
      | none =>
        obtain ⟨tail, buf2, heq, hall, hcat⟩ := ih (buf ++ t) i hc h2
        refine ⟨tail, buf2, ?_, hall, ?_⟩
        · simpa [runLoop, ht, hc, List.flatten_cons, List.append_assoc] using heq
        · simpa [List.flatten_cons, List.append_assoc] using hcat
      | some j =>
        have hj : firstIdx? sep (buf ++ t ++ ts.flatten) = some j := firstIdx?_append _ hc
        have hij : j = i := by
          rw [hj] at h2
          cases h2
          rfl
        subst hij
        have hle := firstIdx?_le hc
        have htake : (buf ++ (t ++ ts.flatten)).take j = (buf ++ t).take j := by
          rw [← List.append_assoc]
          refine List.take_append_of_le_length ?_
          omega
        have hdrop : (buf ++ (t ++ ts.flatten)).drop (j + sep.length) =
            (buf ++ t).drop (j + sep.length) ++ ts.flatten := by
          rw [← List.append_assoc]
          exact List.drop_append_of_le_length hle
        refine ⟨(if (buf ++ t).drop (j + sep.length) = [] then []
                 else [Ev.explanation ((buf ++ t).drop (j + sep.length))]) ++
                explanationEvents ts, buf ++ t, ?_, ?_, ?_⟩
        · simp only [runLoop, ht, hc, runLoop_true]
          simp [List.flatten_cons, List.append_assoc, htake]
        · intro e he
          rcases List.mem_append.1 he with h' | h'
          · by_cases hd : (buf ++ t).drop (j + sep.length) = []
            · rw [if_pos hd] at h'; cases h'
            · rw [if_neg hd] at h'
              cases h' with
              | head => rfl
              | tail _ hh => cases hh
          · exact explanationEvents_isExpl e h'
        · rw [explConcat_append, explConcat_explanationEvents, List.flatten_cons, hdrop]
          by_cases hd : (buf ++ t).drop (j + sep.length) = [] <;>
            simp [hd, explConcat, explText]

/-! ### Shape of a complete run -/

theorem eval_empty_shape {chunks : List (List Char)} (h : chunks.flatten = []) :
    evaluateSentenceStream chunks = [] := by
  have h0 : firstIdx? sep ([] ++ chunks.flatten) = none := by
    rw [h]
    decide
  have := runLoop_noSep chunks [] h0
  rw [List.nil_append] at this
  unfold evaluateSentenceStream
  rw [this, h]
  simp [fallbackEvents]

theorem eval_delimited_shape {chunks : List (List Char)} {i : Nat}
    (h : firstIdx? sep chunks.flatten = some i) :
    ∃ tail, evaluateSentenceStream chunks =
        structuredFields (chunks.flatten.take i) :: tail ∧
      (∀ e ∈ tail, isExplEv e = true) ∧
      explConcat tail = chunks.flatten.drop (i + sep.length) := by
  obtain ⟨tail, buf2, heq, hall, hcat⟩ :=
    runLoop_finds chunks [] i (by decide) (by simpa using h)
  rw [List.nil_append] at heq hcat
  refine ⟨tail, ?_, hall, hcat⟩
  unfold evaluateSentenceStream
  rw [heq]
  simp

theorem eval_fallback_shape {chunks : List (List Char)} (h1 : chunks.flatten ≠ [])
    (h2 : firstIdx? sep chunks.flatten = none) :
    evaluateSentenceStream chunks = fallbackNoSep chunks.flatten := by
  have h0 : firstIdx? sep ([] ++ chunks.flatten) = none := by simpa using h2
  have := runLoop_noSep chunks [] h0
  rw [List.nil_append] at this
  unfold evaluateSentenceStream
  rw [this]
  simp [fallbackEvents, h1, h2]

theorem structuredEvents_structured_cons (s : Nat) (e c : List Char) (l : List Ev) :
    structuredEvents (Ev.structured s e c :: l) = Ev.structured s e c :: structuredEvents l := by
  simp [structuredEvents, isStructuredEv]

theorem structuredEvents_eq_nil_of_expl {l : List Ev} (h : ∀ e ∈ l, isExplEv e = true) :
    structuredEvents l = [] := by
  rw [structuredEvents, List.filter_eq_nil_iff]
  intro e he
  have := h e he
  cases e <;> simp [isStructuredEv, isExplEv] at this ⊢

/-- Normal form of the `onStructuredData` calls as a function of the
concatenated stream text alone. -/
def nfStructured (full : List Char) : List Ev :=
  if full = [] then [] else [structuredFields (headerOf full)]

/-- Normal form of the concatenated explanation output as a function of the
concatenated stream text alone. -/
def nfExpl (full : List Char) : List Char :=
  if full = [] then []
  else
    match firstIdx? sep full with
    | some i => full.drop (i + sep.length)
    | none => fallbackExpl full

theorem eval_nf (chunks : List (List Char)) :
    structuredEvents (evaluateSentenceStream chunks) = nfStructured chunks.flatten ∧
    explConcat (evaluateSentenceStream chunks) = nfExpl chunks.flatten := by
  by_cases h0 : chunks.flatten = []
  · rw [eval_empty_shape h0, nfStructured, nfExpl, if_pos h0, if_pos h0]
    constructor <;> rfl
  · cases hs : firstIdx? sep chunks.flatten with
    | some i =>
      obtain ⟨tail, heq, hall, hcat⟩ := eval_delimited_shape hs
      rw [heq, nfStructured, nfExpl, if_neg h0, if_neg h0, hs, headerOf, hs]
      constructor
      · rw [structuredFields, structuredEvents_structured_cons,
          structuredEvents_eq_nil_of_expl hall]
      · rw [explConcat_cons, hcat]
        rfl
    | none =>
      rw [eval_fallback_shape h0 hs, nfStructured, nfExpl, if_neg h0, if_neg h0, hs,
        headerOf, hs, fallbackNoSep]
      constructor
      · rw [structuredFields, structuredEvents_structured_cons]
        by_cases hf : fallbackExpl chunks.flatten = [] <;>
          simp [hf, structuredEvents, isStructuredEv]
      · by_cases hf : fallbackExpl chunks.flatten = [] <;>
          simp [hf, explConcat, explText, structuredFields]

/-! ### Claim theorems for the streaming parser -/

/-- C1: when the concatenated stream text contains the delimiter
`'\n--- \n'`, `evaluateSentenceStream` fires `onStructuredData` exactly once,
with the score, evaluation and corrected sentence extracted from the text
strictly before the first occurrence of the delimiter, and the concatenation
of all `onExplanationChunk` strings is exactly the text strictly after that
first occurrence (later occurrences pass through unchanged). -/
theorem evaluateSentenceStream_delimited_spec (chunks : List (List Char)) (i : Nat)
    (h : firstIdx? sep chunks.flatten = some i) :
    structuredEvents (evaluateSentenceStream chunks) =
      [Ev.structured (scoreOf (chunks.flatten.take i)) (evaluationOf (chunks.flatten.take i))
        (correctedOf (chunks.flatten.take i))] ∧
    explConcat (evaluateSentenceStream chunks) = chunks.flatten.drop (i + sep.length) := by
  have hne : chunks.flatten ≠ [] := by
    intro h0
    rw [h0] at h
    cases sep_firstIdx?_nil ▸ h
  have hnf := eval_nf chunks
  rw [nfStructured, nfExpl, if_neg hne, if_neg hne, h, headerOf, h] at hnf
  exact hnf

/-- C2: the outcome of `evaluateSentenceStream` depends only on the
concatenated stream text, not on chunk boundaries: equal concatenations give
equal `onStructuredData` calls and an equal concatenated explanation. -/
theorem evaluateSentenceStream_chunking_invariant (chunks1 chunks2 : List (List Char))
    (h : chunks1.flatten = chunks2.flatten) :
    structuredEvents (evaluateSentenceStream chunks1) =
      structuredEvents (evaluateSentenceStream chunks2) ∧
    explConcat (evaluateSentenceStream chunks1) = explConcat (evaluateSentenceStream chunks2) := by
  have h1 := eval_nf chunks1
  have h2 := eval_nf chunks2
  rw [h] at h1
  exact ⟨h1.1.trans h2.1.symm, h1.2.trans h2.2.symm⟩

/-- C3: when the concatenated stream text is non-empty and delimiter-free,
`evaluateSentenceStream` still fires `onStructuredData` once with the fields
extracted from the whole accumulated text; the explanation delivered is the
trimmed `'\n'`-join of the lines after the first line starting with
`correctedSentence:`, and when that line is absent or is the last line,
`onExplanationChunk` is never called. -/
theorem evaluateSentenceStream_fallback_spec (chunks : List (List Char))
    (h1 : chunks.flatten ≠ []) (h2 : firstIdx? sep chunks.flatten = none) :
    structuredEvents (evaluateSentenceStream chunks) =
      [Ev.structured (scoreOf chunks.flatten) (evaluationOf chunks.flatten)
        (correctedOf chunks.flatten)] ∧
    explConcat (evaluateSentenceStream chunks) = fallbackExpl chunks.flatten ∧
    (∀ k, (splitNL chunks.flatten).findIdx? (fun l => keyCorrected.isPrefixOf l) = some k →
      k + 1 < (splitNL chunks.flatten).length →
      explConcat (evaluateSentenceStream chunks) =
        jsTrim (List.intercalate ['\n'] ((splitNL chunks.flatten).drop (k + 1)))) ∧
    (((splitNL chunks.flatten).findIdx? (fun l => keyCorrected.isPrefixOf l) = none ∨
      (∃ k, (splitNL chunks.flatten).findIdx? (fun l => keyCorrected.isPrefixOf l) = some k ∧
        k + 1 = (splitNL chunks.flatten).length)) →
      ∀ e ∈ evaluateSentenceStream chunks, isExplEv e = false) := by
  have heq := eval_fallback_shape h1 h2
  have hnf := eval_nf chunks
  have hS : structuredEvents (evaluateSentenceStream chunks) =
      [structuredFields chunks.flatten] := by
    rw [hnf.1, nfStructured, if_neg h1, headerOf, h2]
  have hE : explConcat (evaluateSentenceStream chunks) = fallbackExpl chunks.flatten := by
    rw [hnf.2, nfExpl, if_neg h1, h2]
  refine ⟨hS, hE, ?_, ?_⟩
  · intro k hk hlt
    rw [hE]
    simp only [fallbackExpl, hk, if_pos hlt]
  · intro hcase e he
    have hfb : fallbackExpl chunks.flatten = [] := by
      rcases hcase with hn | ⟨k, hk, hlen⟩
      · simp only [fallbackExpl, hn]
      · have hnlt : ¬ (k + 1 < (splitNL chunks.flatten).length) := by omega
        simp only [fallbackExpl, hk, if_neg hnlt]
    rw [heq, fallbackNoSep, hfb] at he
    simp at he
    rw [he]
    rfl

/-- C5: whenever the stream yields at least one non-empty chunk (and no
exception occurs), the single `onStructuredData` call is the first callback
fired, and everything after it is an `onExplanationChunk` call: the
structured call happens exactly once and before every explanation chunk. -/
theorem evaluateSentenceStream_structured_first (chunks : List (List Char))
    (h : ∃ c ∈ chunks, c ≠ []) :
    ∃ s e c tail, evaluateSentenceStream chunks = Ev.structured s e c :: tail ∧
      ∀ x ∈ tail, isExplEv x = true := by
  have hne : chunks.flatten ≠ [] := by
    obtain ⟨c, hc, hcne⟩ := h
    intro h0
    exact hcne ((List.flatten_eq_nil_iff.1 h0) c hc)
  cases hs : firstIdx? sep chunks.flatten with
  | some i =>
    obtain ⟨tail, heq, hall, _⟩ := eval_delimited_shape hs
    exact ⟨_, _, _, tail, heq, hall⟩
  | none =>
    rw [eval_fallback_shape hne hs, fallbackNoSep]
    refine ⟨_, _, _, _, rfl, ?_⟩
    intro x hx
    by_cases hf : fallbackExpl chunks.flatten = []
    · rw [if_pos hf] at hx
      cases hx
    · rw [if_neg hf] at hx
      cases hx with
      | head => rfl
      | tail _ hh => cases hh

theorem evaluateSentenceStream_delimited_spec_witness :
    structuredEvents (evaluateSentenceStream ["a\n-".toList, "-- \nb".toList]) =
      [Ev.structured 0 defaultEvaluation defaultCorrected] ∧
    explConcat (evaluateSentenceStream ["a\n-".toList, "-- \nb".toList]) = ['b'] := by
  have h := evaluateSentenceStream_delimited_spec ["a\n-".toList, "-- \nb".toList] 1 (by decide)
  refine ⟨?_, ?_⟩
  · rw [h.1]
    decide
  · rw [h.2]
    decide

theorem evaluateSentenceStream_chunking_invariant_witness :
    structuredEvents (evaluateSentenceStream ["ab\n--".toList, "- \nxy".toList]) =
      structuredEvents (evaluateSentenceStream ["ab".toList, "\n--- \nx".toList, "y".toList]) ∧
    explConcat (evaluateSentenceStream ["ab\n--".toList, "- \nxy".toList]) =
      explConcat (evaluateSentenceStream ["ab".toList, "\n--- \nx".toList, "y".toList]) :=
  evaluateSentenceStream_chunking_invariant
    ["ab\n--".toList, "- \nxy".toList] ["ab".toList, "\n--- \nx".toList, "y".toList] (by decide)

theorem evaluateSentenceStream_fallback_spec_witness :
    structuredEvents (evaluateSentenceStream ["score: 5".toList]) =
      [Ev.structured 5 defaultEvaluation defaultCorrected] := by
  have h := (evaluateSentenceStream_fallback_spec ["score: 5".toList]
    (by decide) (by decide)).1
  rw [h]
  decide

theorem evaluateSentenceStream_structured_first_witness :
    ∃ s e c tail, evaluateSentenceStream ["hi".toList] = Ev.structured s e c :: tail ∧
      ∀ x ∈ tail, isExplEv x = true :=
  evaluateSentenceStream_structured_first ["hi".toList] (by decide)

/-! ### Error handling and the dead fallback branch -/

theorem runLoop_no_streamEnd (ts : List (List Char)) : ∀ (buf : List Char) (hp : Bool),
    ∀ e ∈ (runLoop ts buf hp).1, e ≠ Ev.streamEnd := by
  induction ts with
  | nil => intro buf hp e he; cases he
  | cons t ts ih =>
    intro buf hp e he
    by_cases ht : t = []
    · rw [runLoop, if_pos ht] at he
      exact ih buf hp e he
    · cases hp with
      | true =>
        rw [runLoop, if_neg ht] at he
        simp only [if_true] at he
        cases he with
        | head => intro hx; cases hx
        | tail _ hh => exact ih buf true e hh
      | false =>
        rw [runLoop, if_neg ht] at he
        simp only [Bool.false_eq_true, if_false] at he
        cases hc : firstIdx? sep (buf ++ t) with
        | none =>
          rw [hc] at he
          exact ih (buf ++ t) false e he
        | some i =>
          rw [hc] at he
          simp only at he
          cases he with
          | head => intro hx; cases hx
          | tail _ hh =>
            rcases List.mem_append.1 hh with h' | h'
            · by_cases hd : (buf ++ t).drop (i + sep.length) = []
              · rw [if_pos hd] at h'
                cases h'
              · rw [if_neg hd] at h'
                cases h' with
                | head => intro hx; cases hx
                | tail _ hhh => cases hhh
            · exact ih (buf ++ t) true e h'

theorem fallbackEvents_no_streamEnd (buf : List Char) :
    ∀ e ∈ fallbackEvents buf, e ≠ Ev.streamEnd := by
  intro e he
  rw [fallbackEvents] at he
  by_cases h0 : buf = []
  · rw [if_pos h0] at he
    cases he
  · rw [if_neg h0] at he
    cases hc : firstIdx? sep buf with
    | some i =>
      rw [hc] at he
      simp only at he
      cases he with
      | head => intro hx; cases hx
      | tail _ hh =>
        by_cases hd : buf.drop (i + sep.length) = []
        · rw [if_pos hd] at hh
          cases hh
        · rw [if_neg hd] at hh
          cases hh with
          | head => intro hx; cases hx
          | tail _ hhh => cases hhh
    | none =>
      rw [hc] at he
      simp only [fallbackNoSep] at he
      cases he with
      | head => intro hx; cases hx
      | tail _ hh =>
        by_cases hd : fallbackExpl buf = []
        · rw [if_pos hd] at hh
          cases hh
        · rw [if_neg hd] at hh
          cases hh with
          | head => intro hx; cases hx
          | tail _ hhh => cases hhh

theorem evaluateSentenceStream_no_streamEnd (chunks : List (List Char)) :
    ∀ e ∈ evaluateSentenceStream chunks, e ≠ Ev.streamEnd := by
  intro e he
  simp only [evaluateSentenceStream] at he
  rcases List.mem_append.1 he with h' | h'
  · exact runLoop_no_streamEnd chunks [] false e h'
  · by_cases hp : (runLoop chunks [] false).2.2
    · rw [if_pos hp] at h'
      cases h'
    · rw [if_neg hp] at h'
      exact fallbackEvents_no_streamEnd _ e h'

/-- C6: `evaluateSentenceStream` never lets a stream error escape: on the
error path (`errorAt = some k`, the stream throwing after `k` chunks) the
`catch` block fires `onExplanationChunk` once with the fixed error string,
and on every path — success or error — the `finally` block awaits
`onStreamEnd` exactly once, as the final callback. -/
theorem evaluateSentenceStream_error_handling (chunks : List (List Char))
    (errorAt : Option Nat) :
    (∃ pre, evaluateSentenceStreamRun chunks errorAt = pre ++ [Ev.streamEnd] ∧
      ∀ e ∈ pre, e ≠ Ev.streamEnd) ∧
    (∀ k, errorAt = some k →
      evaluateSentenceStreamRun chunks errorAt =
        (runLoop (chunks.take k) [] false).1 ++ [Ev.explanation errMsg, Ev.streamEnd]) := by
  cases errorAt with
  | none =>
    refine ⟨⟨evaluateSentenceStream chunks, rfl, evaluateSentenceStream_no_streamEnd chunks⟩, ?_⟩
    intro k hk
    cases hk
  | some k =>
    constructor
    · refine ⟨(runLoop (chunks.take k) [] false).1 ++ [Ev.explanation errMsg], ?_, ?_⟩
      · rw [evaluateSentenceStreamRun]
        simp
      · intro e he
        rcases List.mem_append.1 he with h' | h'
        · exact runLoop_no_streamEnd _ [] false e h'
        · simp only [List.mem_singleton] at h'
          subst h'
          intro hx
          cases hx
    · intro k2 hk
      cases hk
      rfl

theorem evaluateSentenceStream_error_handling_witness :
    evaluateSentenceStreamRun ["hi".toList] (some 0) =
      [Ev.explanation errMsg, Ev.streamEnd] := by
  have h := (evaluateSentenceStream_error_handling ["hi".toList] (some 0)).2 0 rfl
  rw [h]
  decide

theorem runLoop_false_no_sep (ts : List (List Char)) : ∀ buf : List Char,
    firstIdx? sep buf = none →
    (runLoop ts buf false).2.2 = false →
    firstIdx? sep (runLoop ts buf false).2.1 = none := by
  induction ts with
  | nil => intro buf h _; exact h
  | cons t ts ih =>
    intro buf h h2
    by_cases ht : t = []
    · rw [runLoop, if_pos ht] at h2 ⊢
      exact ih buf h h2
    · rw [runLoop, if_neg ht] at h2 ⊢
      simp only [Bool.false_eq_true, if_false] at h2 ⊢
      cases hc : firstIdx? sep (buf ++ t) with
      | none =>
        rw [hc] at h2
        exact ih (buf ++ t) hc h2
      | some i =>
        rw [hc] at h2
        have h3 : (runLoop ts (buf ++ t) true).2.2 = false := h2
        rw [runLoop_true] at h3
        cases h3

/-- C10: if the chunk loop ends with `headersParsed` still false, the
accumulated buffer cannot contain the delimiter, so the post-loop fallback's
renewed `indexOf` search returns `-1` and its delimiter branch is
unreachable: the fallback always takes the no-delimiter path. -/
theorem evaluateSentenceStream_fallback_delimiter_unreachable (chunks : List (List Char))
    (h : (runLoop chunks [] false).2.2 = false) :
    firstIdx? sep (runLoop chunks [] false).2.1 = none ∧
    ((runLoop chunks [] false).2.1 ≠ [] →
      fallbackEvents (runLoop chunks [] false).2.1 =
        fallbackNoSep (runLoop chunks [] false).2.1) := by
  have hn := runLoop_false_no_sep chunks [] (by decide) h
  refine ⟨hn, fun hne => ?_⟩
  rw [fallbackEvents, if_neg hne, hn]

theorem evaluateSentenceStream_fallback_delimiter_unreachable_witness :
    firstIdx? sep (runLoop ["hi".toList] [] false).2.1 = none ∧
    fallbackEvents (runLoop ["hi".toList] [] false).2.1 =
      fallbackNoSep (runLoop ["hi".toList] [] false).2.1 := by
  have h := evaluateSentenceStream_fallback_delimiter_unreachable ["hi".toList] (by decide)
  exact ⟨h.1, h.2 (by decide)⟩

/-! ### Field extraction (claim C4) -/

/-- Definition following the claim's words, for comparison with the source
embedding `scoreOf`: the score is the decimal integer captured by the first
header LINE matching `score:` followed by optional whitespace and digits,
defaulting to 0 when no line matches.  (The source regex differs: its `\s*`
may cross a line break, so the captured digits can lie on a later line.) -/
def scoreLineSpec (h : List Char) : Nat :=
  match (splitNL h).findSome? (fun l =>
      if keyScore.isPrefixOf l then
        let ds := ((l.drop keyScore.length).dropWhile jsWhitespace).takeWhile Char.isDigit
        if ds.isEmpty then none else some ds
      else none) with
  | some ds => digitsVal ds
  | none => 0

/-- C4 counterexample: on the stream text `"score:\n42"` (no delimiter, so
the fallback parse runs) the code delivers score 42 — the regex's `\s*`
crosses the line break — while the claim's per-line reading yields the
default 0, since no single line matches `score:` followed by spaces and
digits. -/
theorem evaluateSentenceStream_fields_line_counterexample :
    structuredEvents (evaluateSentenceStream ["score:\n42".toList]) =
      [Ev.structured 42 defaultEvaluation defaultCorrected] ∧
    scoreLineSpec "score:\n42".toList = 0 := by
  constructor
  · decide
  · decide

/-- C4 amended: in both the delimited and the fallback parse, every
`onStructuredData` payload consists of `scoreOf`, `evaluationOf` and
`correctedOf` applied to the header region (text before the first delimiter,
or the whole text): the first line-start match of the key, with optional
whitespace that may span line breaks, then the digit capture (score,
defaulting to 0 when no match exists) or the trimmed rest-of-line capture
(evaluation and corrected sentence, with their fixed defaults). -/
theorem evaluateSentenceStream_fields_spec (chunks : List (List Char)) :
    (∀ s e c, Ev.structured s e c ∈ evaluateSentenceStream chunks →
      s = scoreOf (headerOf chunks.flatten) ∧
      e = evaluationOf (headerOf chunks.flatten) ∧
      c = correctedOf (headerOf chunks.flatten)) ∧
    (∀ h, (∀ t ∈ lineStartTails h, tryKey keyScore scoreCap t = none) →
      scoreOf h = 0) ∧
    (∀ h, (∀ t ∈ lineStartTails h, keyEvaluation.isPrefixOf t = false) →
      evaluationOf h = defaultEvaluation) ∧
    (∀ h, (∀ t ∈ lineStartTails h, keyCorrected.isPrefixOf t = false) →
      correctedOf h = defaultCorrected) := by
  refine ⟨?_, ?_, ?_, ?_⟩
  · intro s e c hmem
    by_cases h0 : chunks.flatten = []
    · rw [eval_empty_shape h0] at hmem
      cases hmem
    · cases hs : firstIdx? sep chunks.flatten with
      | some i =>
        obtain ⟨tail, heq, hall, _⟩ := eval_delimited_shape hs
        rw [heq] at hmem
        have hhead : headerOf chunks.flatten = chunks.flatten.take i := by
          rw [headerOf, hs]
        cases hmem with
        | head =>
          rw [hhead]
          rw [structuredFields] at heq
          exact ⟨rfl, rfl, rfl⟩
        | tail _ hh =>
          have := hall _ hh
          simp [isExplEv] at this
      | none =>
        rw [eval_fallback_shape h0 hs, fallbackNoSep] at hmem
        have hhead : headerOf chunks.flatten = chunks.flatten := by
          rw [headerOf, hs]
        cases hmem with
        | head =>
          rw [hhead]
          exact ⟨rfl, rfl, rfl⟩
        | tail _ hh =>
          by_cases hf : fallbackExpl chunks.flatten = []
          · rw [if_pos hf] at hh
            cases hh
          · rw [if_neg hf] at hh
            cases hh with
            | tail _ hhh => cases hhh
  · intro h hall
    rw [scoreOf, scanLineStarts, List.findSome?_eq_none_iff.2 hall]
  · intro h hall
    rw [evaluationOf, scanLineStarts, List.findSome?_eq_none_iff.2 ?_]
    intro t ht
    rw [tryKey, hall t ht]
    rfl
  · intro h hall
    rw [correctedOf, scanLineStarts, List.findSome?_eq_none_iff.2 ?_]
    intro t ht
    rw [tryKey, hall t ht]
    rfl

theorem evaluateSentenceStream_fields_spec_witness :
    42 = scoreOf (headerOf (List.flatten ["score:\n42".toList])) ∧
    defaultEvaluation = evaluationOf (headerOf (List.flatten ["score:\n42".toList])) ∧
    defaultCorrected = correctedOf (headerOf (List.flatten ["score:\n42".toList])) :=
  (evaluateSentenceStream_fields_spec ["score:\n42".toList]).1 42 defaultEvaluation
    defaultCorrected (by decide)

/-! ### History service (services/historyService.ts)

The backing store (`localStorage` under `'japanesePracticeHistory'`) is
modelled at the parsed level as `Option (List HistoryItem)`: every write
stores `JSON.stringify` of a well-formed array, which reads back as the same
array.  `getHistory` with a raw, possibly unparseable stored string is
modelled separately for the error-handling claim. -/

/-- `GameMode` from types.ts.  The merge code compares items against
`GameMode.SentenceCheck`, a member this enum does not have, so that
comparison never holds for a well-typed item. -/
inductive GameMode where
  | Translation
  | MultipleChoice
deriving DecidableEq

/-- The `HistoryItem` fields the history service reads: `id` (update/delete
match on it), `timestamp` and the sentences (merge key).  The remaining
payload fields influence no history operation. -/
structure HistoryItem where
  id : List Char
  timestamp : Int
  gameMode : GameMode
  chineseSentence : List Char
  userSentence : List Char
deriving DecidableEq

/-- `item.gameMode === GameMode.SentenceCheck ? item.userSentence :
item.chineseSentence`; `GameMode.SentenceCheck` does not exist, so the
comparison is never true and the else branch is always taken. -/
def mainSentence (it : HistoryItem) : List Char :=
  it.chineseSentence

/-- Decimal rendering of an integer, as in a JS template literal. -/
def intToChars (i : Int) : List Char :=
  if i < 0 then '-' :: Nat.toDigits 10 i.natAbs else Nat.toDigits 10 i.toNat

/-- The merge deduplication key, the template literal
`timestamp + '-' + mainSentence`. -/
def dedupKey (it : HistoryItem) : List Char :=
  intToChars it.timestamp ++ '-' :: mainSentence it

def getHistory (s : Option (List HistoryItem)) : List HistoryItem :=
  s.getD []

/-- `addHistoryItem`: prepend and cap at 100. -/
def addHistoryItem (s : Option (List HistoryItem)) (newItem : HistoryItem) :
    Option (List HistoryItem) :=
  some ((newItem :: getHistory s).take 100)

/-- `updateHistoryItem`: replace the items whose `id` matches. -/
def updateHistoryItem (s : Option (List HistoryItem)) (upd : HistoryItem) :
    Option (List HistoryItem) :=
  some ((getHistory s).map fun it => if it.id = upd.id then upd else it)

/-- `deleteHistoryItem`: drop the items with this `id`. -/
def deleteHistoryItem (s : Option (List HistoryItem)) (i : List Char) :
    Option (List HistoryItem) :=
  some ((getHistory s).filter fun it => it.id != i)

/-- `deleteMultipleHistoryItems`: drop the items whose `id` is in the set. -/
def deleteMultipleHistoryItems (s : Option (List HistoryItem)) (ids : List (List Char)) :
    Option (List HistoryItem) :=
  some ((getHistory s).filter fun it => !(ids.contains it.id))

/-- The `Map`-based dedup loop of `mergeAndSaveHistory`: keep the first
occurrence of each key, in first-occurrence order (`Map` iteration order is
key-insertion order and `set` happens only when `has` is false). -/
def dedupGo (seen : List (List Char)) : List HistoryItem → List HistoryItem
  | [] => []
  | x :: xs =>
    if seen.contains (dedupKey x) then dedupGo seen xs
    else x :: dedupGo (dedupKey x :: seen) xs

def dedupFirst (l : List HistoryItem) : List HistoryItem :=
  dedupGo [] l

/-- Stable insertion for the descending-timestamp sort: an element moves
ahead only of strictly smaller timestamps, as the stable ES2019
`sort((a, b) => b.timestamp - a.timestamp)` does. -/
def insertTsDesc (x : HistoryItem) : List HistoryItem → List HistoryItem
  | [] => [x]
  | y :: ys => if y.timestamp ≤ x.timestamp then x :: y :: ys else y :: insertTsDesc x ys

def sortTsDesc : List HistoryItem → List HistoryItem
  | [] => []
  | x :: xs => insertTsDesc x (sortTsDesc xs)

/-- `mergeAndSaveHistory`: concatenate current-then-imported, dedup by key
(first occurrence wins), sort by timestamp descending, cap at 200, persist
and return.  (The `Array.isArray` guard and the per-item `typeof` validation
always pass for well-typed input and are omitted.) -/
def mergeAndSaveHistory (s : Option (List HistoryItem)) (imported : List HistoryItem) :
    Option (List HistoryItem) × List HistoryItem :=
  let final := (sortTsDesc (dedupFirst (getHistory s ++ imported))).take 200
  (some final, final)

/-- One history-service call, for stating invariants over call sequences. -/
inductive HOp where
  | get
  | add (item : HistoryItem)
  | update (item : HistoryItem)
  | del (i : List Char)
  | delMany (ids : List (List Char))
  | merge (items : List HistoryItem)

def applyOp (s : Option (List HistoryItem)) : HOp → Option (List HistoryItem)
  | HOp.get => s
  | HOp.add it => addHistoryItem s it
  | HOp.update it => updateHistoryItem s it
  | HOp.del i => deleteHistoryItem s i
  | HOp.delMany ids => deleteMultipleHistoryItems s ids
  | HOp.merge l => (mergeAndSaveHistory s l).1

def applyOps (s : Option (List HistoryItem)) (ops : List HOp) : Option (List HistoryItem) :=
  ops.foldl applyOp s

def storeCount (s : Option (List HistoryItem)) : Nat :=
  (getHistory s).length

/-- `getHistory` over a raw store: `none` models no stored value, `some str`
a stored string, parsed by `parse` (an abstract `JSON.parse`, an exception
modelled as `Except.error`).  The empty string is falsy, so the `if
(historyJson)` guard skips parsing it. -/
def getHistoryParsed (parse : List Char → Except (List Char) (List HistoryItem))
    (raw : Option (List Char)) : List HistoryItem :=
  match raw with
  | none => []
  | some str =>
    if str = [] then []
    else
      match parse str with
      | Except.ok items => items
      | Except.error _ => []

/-! ### History lemmas -/

theorem storeCount_applyOp_le (s : Option (List HistoryItem)) (op : HOp)
    (h : storeCount s ≤ 200) : storeCount (applyOp s op) ≤ 200 := by
  cases op with
  | get => exact h
  | add it =>
    show ((it :: getHistory s).take 100).length ≤ 200
    rw [List.length_take]
    omega
  | update it =>
    show (List.map _ (getHistory s)).length ≤ 200
    rw [List.length_map]
    exact h
  | del i =>
    exact le_trans (List.length_filter_le _ _) h
  | delMany ids =>
    exact le_trans (List.length_filter_le _ _) h
  | merge l =>
    show ((sortTsDesc _).take 200).length ≤ 200
    rw [List.length_take]
    omega

theorem storeCount_applyOps_le (ops : List HOp) : ∀ s : Option (List HistoryItem),
    storeCount s ≤ 200 → storeCount (applyOps s ops) ≤ 200 := by
  induction ops with
  | nil => intro s h; exact h
  | cons op ops ih =>
    intro s h
    exact ih (applyOp s op) (storeCount_applyOp_le s op h)

/-- C7: starting from an empty store, every sequence of history-service
calls leaves at most 200 stored items; immediately after any
`addHistoryItem` call the store holds the new item first, followed by the
previous items truncated to the first 99 — hence at most 100 items. -/
theorem historyService_cap_invariant (ops : List HOp) (it : HistoryItem) :
    storeCount (applyOps none ops) ≤ 200 ∧
    applyOps none (ops ++ [HOp.add it]) =
      some (it :: (getHistory (applyOps none ops)).take 99) ∧
    storeCount (applyOps none (ops ++ [HOp.add it])) ≤ 100 := by
  have hadd : applyOps none (ops ++ [HOp.add it]) =
      some (it :: (getHistory (applyOps none ops)).take 99) := by
    rw [applyOps, List.foldl_append]
    show addHistoryItem (applyOps none ops) it = _
    rw [addHistoryItem]
    rfl
  refine ⟨storeCount_applyOps_le ops none (by simp [storeCount, getHistory]), hadd, ?_⟩
  rw [hadd]
  show (it :: (getHistory (applyOps none ops)).take 99).length ≤ 100
  rw [List.length_cons, List.length_take]
  omega

theorem dedupGo_mem {x : HistoryItem} : ∀ {l : List HistoryItem} {seen : List (List Char)},
    x ∈ dedupGo seen l → x ∈ l ∧ seen.contains (dedupKey x) = false := by
  intro l
  induction l with
  | nil => intro seen h; cases h
  | cons y ys ih =>
    intro seen h
    by_cases hy : seen.contains (dedupKey y) = true
    · rw [dedupGo, if_pos hy] at h
      obtain ⟨h1, h2⟩ := ih h
      exact ⟨List.mem_cons_of_mem _ h1, h2⟩
    · rw [dedupGo, if_neg hy] at h
      cases h with
      | head =>
        refine ⟨List.mem_cons_self _ _, ?_⟩
        simpa using hy
      | tail _ hh =>
        obtain ⟨h1, h2⟩ := ih hh
        rw [List.contains_cons] at h2
        simp only [Bool.or_eq_false_iff] at h2
        exact ⟨List.mem_cons_of_mem _ h1, h2.2⟩

theorem dedupGo_not_mem_of_seen {l : List HistoryItem} {seen : List (List Char)}
    {x : HistoryItem} (h : seen.contains (dedupKey x) = true) : x ∉ dedupGo seen l := by
  intro hx
  have h2 := (dedupGo_mem hx).2
  rw [h2] at h
  cases h

theorem dedupGo_not_mem_append {x : HistoryItem} : ∀ (l1 : List HistoryItem)
    (seen : List (List Char)) (l2 : List HistoryItem),
    x ∉ l1 →
    (seen.contains (dedupKey x) = true ∨ ∃ e ∈ l1, dedupKey e = dedupKey x) →
    x ∉ dedupGo seen (l1 ++ l2) := by
  intro l1
  induction l1 with
  | nil =>
    intro seen l2 _ hcase
    rcases hcase with hs | ⟨e, he, _⟩
    · exact dedupGo_not_mem_of_seen hs
    · cases he
  | cons y ys ih =>
    intro seen l2 hnx hcase
    have hxy : x ≠ y := fun hq => hnx (hq ▸ List.mem_cons_self _ _)
    have hnxs : x ∉ ys := fun hq => hnx (List.mem_cons_of_mem _ hq)
    rw [List.cons_append]
    by_cases hy : seen.contains (dedupKey y) = true
    · rw [dedupGo, if_pos hy]
      apply ih seen l2 hnxs
      rcases hcase with hs | ⟨e, he, hk⟩
      · exact Or.inl hs
      · cases he with
        | head => exact Or.inl (hk ▸ hy)
        | tail _ hh => exact Or.inr ⟨e, hh, hk⟩
    · rw [dedupGo, if_neg hy]
      intro hmem
      cases hmem with
      | head => exact hxy rfl
      | tail _ hh =>
        refine ih (dedupKey y :: seen) l2 hnxs ?_ hh
        rcases hcase with hs | ⟨e, he, hk⟩
        · refine Or.inl ?_
          rw [List.contains_cons, hs]
          simp
        · cases he with
          | head =>
            refine Or.inl ?_
            rw [List.contains_cons, ← hk]
            simp
          | tail _ hh2 => exact Or.inr ⟨e, hh2, hk⟩

theorem mem_insertTsDesc {a x : HistoryItem} : ∀ {l : List HistoryItem},
    a ∈ insertTsDesc x l ↔ a = x ∨ a ∈ l := by
  intro l
  induction l with
  | nil => simp [insertTsDesc]
  | cons y ys ih =>
    rw [insertTsDesc]
    by_cases hc : y.timestamp ≤ x.timestamp
    · rw [if_pos hc]
      simp [or_comm, or_left_comm]
    · rw [if_neg hc]
      simp only [List.mem_cons, ih]
      tauto

theorem mem_sortTsDesc {a : HistoryItem} : ∀ {l : List HistoryItem},
    a ∈ sortTsDesc l ↔ a ∈ l := by
  intro l
  induction l with
  | nil => simp [sortTsDesc]
  | cons x xs ih =>
    rw [sortTsDesc]
    simp only [mem_insertTsDesc, ih, List.mem_cons]

/-- Non-increasing timestamps, pairwise. -/
def tsGE (a b : HistoryItem) : Prop := b.timestamp ≤ a.timestamp

theorem pairwise_insertTsDesc {x : HistoryItem} : ∀ {l : List HistoryItem},
    l.Pairwise tsGE → (insertTsDesc x l).Pairwise tsGE := by
  intro l
  induction l with
  | nil => intro _; simp [insertTsDesc, tsGE]
  | cons y ys ih =>
    intro hp
    rcases List.pairwise_cons.1 hp with ⟨hy, hys⟩
    rw [insertTsDesc]
    by_cases hc : y.timestamp ≤ x.timestamp
    · rw [if_pos hc]
      refine List.pairwise_cons.2 ⟨?_, hp⟩
      intro z hz
      cases hz with
      | head => exact hc
      | tail _ hh => exact le_trans (hy z hh) hc
    · rw [if_neg hc]
      refine List.pairwise_cons.2 ⟨?_, ih hys⟩
      intro z hz
      rcases mem_insertTsDesc.1 hz with rfl | hh
      · exact le_of_lt (lt_of_not_le hc)
      · exact hy z hh

theorem pairwise_sortTsDesc : ∀ l : List HistoryItem, (sortTsDesc l).Pairwise tsGE
  | [] => by simp [sortTsDesc]
  | x :: xs => by
    rw [sortTsDesc]
    exact pairwise_insertTsDesc (pairwise_sortTsDesc xs)

/-- C8 counterexample: with two stored items sharing the dedup key, the
second stored item is dropped, so sharing a key with an imported item does
not guarantee the existing item survives the merge — the claim's "the result
contains the existing item" fails at this input. -/
theorem mergeAndSaveHistory_keep_existing_counterexample :
    dedupKey ⟨['b'], 5, GameMode.Translation, ['s'], ['v']⟩ =
      dedupKey ⟨['c'], 5, GameMode.Translation, ['s'], ['w']⟩ ∧
    (⟨['b'], 5, GameMode.Translation, ['s'], ['v']⟩ : HistoryItem) ∈
      [⟨['a'], 5, GameMode.Translation, ['s'], ['u']⟩,
       ⟨['b'], 5, GameMode.Translation, ['s'], ['v']⟩] ∧
    (mergeAndSaveHistory
        (some [⟨['a'], 5, GameMode.Translation, ['s'], ['u']⟩,
               ⟨['b'], 5, GameMode.Translation, ['s'], ['v']⟩])
        [⟨['c'], 5, GameMode.Translation, ['s'], ['w']⟩]).2 =
      [⟨['a'], 5, GameMode.Translation, ['s'], ['u']⟩] ∧
    (⟨['b'], 5, GameMode.Translation, ['s'], ['v']⟩ : HistoryItem) ∉
      (mergeAndSaveHistory
        (some [⟨['a'], 5, GameMode.Translation, ['s'], ['u']⟩,
               ⟨['b'], 5, GameMode.Translation, ['s'], ['v']⟩])
        [⟨['c'], 5, GameMode.Translation, ['s'], ['w']⟩]).2 := by
  refine ⟨by decide, by decide, by decide, by decide⟩

/-- C8 amended: `mergeAndSaveHistory` keeps, per dedup key (timestamp plus
main sentence), the first occurrence in stored-then-imported order — so a
stored item always takes precedence over an imported item with the same
key — sorts the kept items by timestamp in non-increasing order, truncates
to the first 200, persists and returns them.  In particular an imported item
whose key already occurs among the stored items is never in the result
unless it is itself one of the stored items. -/
theorem mergeAndSaveHistory_dedup_sorted (stored imported : List HistoryItem) :
    (mergeAndSaveHistory (some stored) imported).2 =
      (sortTsDesc (dedupFirst (stored ++ imported))).take 200 ∧
    (mergeAndSaveHistory (some stored) imported).1 =
      some ((sortTsDesc (dedupFirst (stored ++ imported))).take 200) ∧
    ((mergeAndSaveHistory (some stored) imported).2).Pairwise tsGE ∧
    (∀ i, i ∈ imported → i ∉ stored →
      (∃ e ∈ stored, dedupKey e = dedupKey i) →
      i ∉ (mergeAndSaveHistory (some stored) imported).2) := by
  refine ⟨rfl, rfl, ?_, ?_⟩
  · exact (pairwise_sortTsDesc _).sublist (List.take_sublist _ _)
  · intro i _ hnotst ⟨e, he, hk⟩ hmem
    have h1 : i ∈ sortTsDesc (dedupFirst (stored ++ imported)) :=
      List.mem_of_mem_take hmem
    have h2 : i ∈ dedupFirst (stored ++ imported) := mem_sortTsDesc.1 h1
    exact dedupGo_not_mem_append stored [] imported hnotst (Or.inr ⟨e, he, hk⟩) h2

theorem mergeAndSaveHistory_dedup_sorted_witness :
    (⟨['c'], 5, GameMode.Translation, ['s'], ['w']⟩ : HistoryItem) ∉
      (mergeAndSaveHistory
        (some [⟨['a'], 5, GameMode.Translation, ['s'], ['u']⟩])
        [⟨['c'], 5, GameMode.Translation, ['s'], ['w']⟩]).2 :=
  (mergeAndSaveHistory_dedup_sorted
      [⟨['a'], 5, GameMode.Translation, ['s'], ['u']⟩]
      [⟨['c'], 5, GameMode.Translation, ['s'], ['w']⟩]).2.2.2
    ⟨['c'], 5, GameMode.Translation, ['s'], ['w']⟩
    (by decide) (by decide) ⟨⟨['a'], 5, GameMode.Translation, ['s'], ['u']⟩, by decide, by decide⟩

/-- C9: `getHistory` is total: it returns the parsed array when a stored
value is present and parses, and the empty list when nothing is stored, when
the stored string is empty (falsy), or when parsing throws. -/
theorem getHistory_total_spec (parse : List Char → Except (List Char) (List HistoryItem))
    (raw : Option (List Char)) :
    (raw = none → getHistoryParsed parse raw = []) ∧
    (raw = some [] → getHistoryParsed parse raw = []) ∧
    (∀ s items, raw = some s → s ≠ [] → parse s = Except.ok items →
      getHistoryParsed parse raw = items) ∧
    (∀ s e, raw = some s → parse s = Except.error e →
      getHistoryParsed parse raw = []) := by
  refine ⟨?_, ?_, ?_, ?_⟩
  · intro h
    subst h
    rfl
  · intro h
    subst h
    rfl
  · intro s items h hs hp
    subst h
    simp [getHistoryParsed, hs, hp]
  · intro s e h hp
    subst h
    by_cases hs : s = [] <;> simp [getHistoryParsed, hs, hp]

theorem getHistory_total_spec_witness :
    getHistoryParsed
      (fun s => if s = "[]".toList then Except.ok [] else Except.error s)
      (some "[]".toList) = [] :=
  (getHistory_total_spec
      (fun s => if s = "[]".toList then Except.ok [] else Except.error s)
      (some "[]".toList)).2.2.1 "[]".toList [] rfl (by decide) rfl

end JSentence
